import Mathlib

/-!
Verification development for the arbitrary-precision integer ("bignum")
core declared in `shotgun/lib/bignum.h`.  The repository ships only the
declaration header, so every operation below is modelled from the design
specification's description of that operation.  C strings are modelled as
`List Char`, machine limbs as `Nat` below `limbBase`, and fallible
operations return `Except BignumError` (the spec's synchronous explicit
failure signals).
-/

/-- Modelled from the spec: the limb base `B`, "a power of two matching a
convenient machine word half-width" (16 bits of a 32-bit word). -/
def limbBase : Nat := 65536

/-- Modelled from the spec: the sign of a Value, one of Positive, Negative,
Zero. -/
inductive Sign where
  | Pos : Sign
  | Neg : Sign
  | Zero : Sign
deriving DecidableEq

/-- Modelled from the spec: a Value is a sign together with an ordered
sequence of unsigned limbs, least-significant limb first. -/
structure Value where
  sign : Sign
  mag : List Nat
deriving DecidableEq

/-- Modelled from the spec: the natural number denoted by a magnitude
(least-significant limb first, base `limbBase`). -/
def limbsVal : List Nat → Nat
  | [] => 0
  | d :: t => d + limbBase * limbsVal t

/-- The natural number denoted by a Value's magnitude. -/
def magVal (v : Value) : Nat := limbsVal v.mag

/-- Fuel-indexed splitting of a natural number into base-`limbBase` limbs,
least significant first. -/
def natToLimbsAux : Nat → Nat → List Nat
  | 0, _ => []
  | f + 1, n => if n = 0 then [] else n % limbBase :: natToLimbsAux f (n / limbBase)

/-- Modelled from the spec: splitting a machine-level natural number into a
minimal limb sequence (no leading zero limb), least significant first. -/
def natToLimbs (n : Nat) : List Nat := natToLimbsAux n n

/-- The canonical zero Value: empty magnitude, sign Zero. -/
def zeroValue : Value := { sign := Sign.Zero, mag := [] }

/-- Smart constructor used by every operation: a sign and an unsigned
magnitude, collapsing magnitude 0 to the canonical zero Value. -/
def mkValue (s : Sign) (n : Nat) : Value :=
  if n = 0 then zeroValue else { sign := s, mag := natToLimbs n }

/-- The signed integer denoted by a Value. -/
def toInt (v : Value) : Int :=
  match v.sign with
  | Sign.Pos => (magVal v : Int)
  | Sign.Neg => -(magVal v : Int)
  | Sign.Zero => 0

/-- Encoding of a signed integer as a canonical Value. -/
def intToValue (z : Int) : Value :=
  if z = 0 then zeroValue
  else if 0 < z then mkValue Sign.Pos z.natAbs
  else mkValue Sign.Neg z.natAbs

/-- Modelled from the spec: a magnitude has no leading (most-significant)
zero limb. -/
def noLeadingZeroLimb (l : List Nat) : Prop := l.getLast? ≠ some 0

instance (l : List Nat) : Decidable (noLeadingZeroLimb l) := by
  unfold noLeadingZeroLimb; infer_instance

/-- Modelled from the spec: canonical form — limbs below the base, no
leading zero limb, and sign Zero exactly for the empty magnitude. -/
def Canonical (v : Value) : Prop :=
  (∀ d ∈ v.mag, d < limbBase) ∧ noLeadingZeroLimb v.mag ∧
    (v.sign = Sign.Zero ↔ v.mag = [])

instance (v : Value) : Decidable (Canonical v) := by
  unfold Canonical; infer_instance

/-- Modelled from the spec: a raw (pre-normalization) operation result —
limbs below the base and a sign consistent with the magnitude's value
(sign Zero exactly when the magnitude denotes 0). -/
def RawWellFormed (v : Value) : Prop :=
  (∀ d ∈ v.mag, d < limbBase) ∧ (v.sign = Sign.Zero ↔ limbsVal v.mag = 0)

instance (v : Value) : Decidable (RawWellFormed v) := by
  unfold RawWellFormed; infer_instance

/-- Strips the most-significant zero limbs of a magnitude (the trailing
zeros of the least-significant-first list). -/
def stripMSZeros (l : List Nat) : List Nat :=
  (l.reverse.dropWhile (fun d => d = 0)).reverse

/-- Modelled from the spec: `bignum_normalize` strips the most-significant
zero limbs and pairs the empty magnitude only with sign Zero.  The
fixed-width ("fixnum") demotion boundary is an external collaborator
(spec section 6) and is not part of this core's value model, so the
canonical sign-magnitude form itself is returned. -/
def bignum_normalize (v : Value) : Value :=
  if stripMSZeros v.mag = [] then zeroValue
  else { sign := v.sign, mag := stripMSZeros v.mag }

/-- Modelled from the spec: the error taxonomy surfaced synchronously to
callers. -/
inductive BignumError where
  | DivisionByZero : BignumError
  | InvalidRadix : BignumError
  | MalformedNumeral : BignumError
  | BufferTooSmall : BignumError
  | NonFiniteFloat : BignumError
deriving DecidableEq

deriving instance DecidableEq for Except

/-- Modelled from the spec: `bignum_add` — matching signs add magnitudes;
differing signs subtract the smaller magnitude from the larger, the result
taking the sign of the strictly greater magnitude; equal magnitudes of
opposite sign give canonical zero. -/
def bignum_add (a b : Value) : Value :=
  match a.sign, b.sign with
  | Sign.Zero, _ => bignum_normalize b
  | _, Sign.Zero => bignum_normalize a
  | sa, sb =>
    if sa = sb then mkValue sa (magVal a + magVal b)
    else if magVal b < magVal a then mkValue sa (magVal a - magVal b)
    else if magVal a < magVal b then mkValue sb (magVal b - magVal a)
    else zeroValue

/-- Modelled from the spec: `bignum_invert` (bitwise complement) computes
`-(x) - 1` directly on the signed value. -/
def bignum_invert (v : Value) : Value := intToValue (-(toInt v) - 1)

/-- Modelled from the spec: `bignum_neg` computes invert-then-increment
(two's-complement negation). -/
def bignum_neg (v : Value) : Value :=
  bignum_add (bignum_invert v) (intToValue 1)

/-- Modelled from the spec: `bignum_sub` is expressed as addition of the
negation. -/
def bignum_sub (a b : Value) : Value := bignum_add a (bignum_neg b)

/-- Sign of a product: Zero if either factor is Zero, else Positive when the
signs match and Negative otherwise. -/
def signMul : Sign → Sign → Sign
  | Sign.Zero, _ => Sign.Zero
  | _, Sign.Zero => Sign.Zero
  | s, t => if s = t then Sign.Pos else Sign.Neg

/-- Modelled from the spec: `bignum_mul` — schoolbook magnitude product;
result sign Zero if either operand is Zero, Positive if the signs match,
Negative otherwise. -/
def bignum_mul (a b : Value) : Value :=
  match a.sign, b.sign with
  | Sign.Zero, _ => zeroValue
  | _, Sign.Zero => zeroValue
  | _, _ => mkValue (signMul a.sign b.sign) (magVal a * magVal b)

/-- Modelled from the spec: `bignum_div` — fails with DivisionByZero when
the divisor is Zero; otherwise long division of the magnitudes yields the
unsigned quotient and remainder, and when the true quotient sign is
negative and the unsigned remainder nonzero, the quotient magnitude is
incremented (the signed quotient decremented) and the remainder corrected
to `divisor magnitude − remainder`, enforcing the floor /
remainder-sign-matches-divisor policy. -/
def bignum_div (a b : Value) : Except BignumError (Value × Value) :=
  if b.sign = Sign.Zero then Except.error BignumError.DivisionByZero
  else if signMul a.sign b.sign = Sign.Neg ∧ magVal a % magVal b ≠ 0 then
    Except.ok (mkValue Sign.Neg (magVal a / magVal b + 1),
      mkValue b.sign (magVal b - magVal a % magVal b))
  else
    Except.ok (mkValue (signMul a.sign b.sign) (magVal a / magVal b),
      mkValue b.sign (magVal a % magVal b))

/-- Modelled from the spec: the digit characters `0`–`9`, `a`–`z` used by
the radix codec. -/
def digitChar (d : Nat) : Char :=
  if d < 10 then Char.ofNat (48 + d) else Char.ofNat (87 + d)

/-- Modelled from the spec: the numeric value of a digit character; digits
`0`–`9` and letters in either case are accepted. -/
def digitVal (c : Char) : Option Nat :=
  let n := c.toNat
  if 48 ≤ n ∧ n ≤ 57 then some (n - 48)
  else if 97 ≤ n ∧ n ≤ 122 then some (n - 97 + 10)
  else if 65 ≤ n ∧ n ≤ 90 then some (n - 65 + 10)
  else none

/-- Fuel-indexed digit extraction: the base-`r` digits of `n`, least
significant first. -/
def natDigitsAux (r : Nat) : Nat → Nat → List Nat
  | 0, _ => []
  | f + 1, n => if n = 0 ∨ r < 2 then [] else n % r :: natDigitsAux r f (n / r)

/-- Modelled from the spec: repeated division of a magnitude by the radix,
collecting remainders from least to most significant. -/
def natDigitsRev (r n : Nat) : List Nat := natDigitsAux r n n

/-- Modelled from the spec: `bignum_to_s` renders the value in the given
radix: digits most significant first, `-` for negative values, zero as the
single character `0`; fails with InvalidRadix outside [2,36]. -/
def bignum_to_s (v : Value) (radix : Nat) : Except BignumError (List Char) :=
  if radix < 2 ∨ 36 < radix then Except.error BignumError.InvalidRadix
  else if v.sign = Sign.Zero then Except.ok ['0']
  else if v.sign = Sign.Neg then
    Except.ok ('-' :: ((natDigitsRev radix (magVal v)).reverse).map digitChar)
  else Except.ok (((natDigitsRev radix (magVal v)).reverse).map digitChar)

/-- The NUL terminator written after the rendered characters. -/
def nulChar : Char := Char.ofNat 0

/-- Modelled from the spec: `bignum_into_string` — the same rendering
algorithm but writing into a caller-supplied buffer of capacity `sz`;
fails with BufferTooSmall before any write when the rendered form plus
sign and terminator cannot fit.  The C routine mutates the buffer in
place; it is modelled state-passing style, returning the failure signal
(if any) together with the buffer contents after the call. -/
def intoStringBody (v : Value) (radix : Nat) : List Char :=
  (if v.sign = Sign.Neg then ['-'] else []) ++
    (if v.sign = Sign.Zero then ['0']
     else ((natDigitsRev radix (magVal v)).map digitChar).reverse)

def bignum_into_string (v : Value) (radix : Nat) (buf : List Char) (sz : Nat) :
    Option BignumError × List Char :=
  if radix < 2 ∨ 36 < radix then (some BignumError.InvalidRadix, buf)
  else if sz < (intoStringBody v radix).length + 1 then
    (some BignumError.BufferTooSmall, buf)
  else
    (none, intoStringBody v radix ++
      nulChar :: buf.drop ((intoStringBody v radix).length + 1))

/-- Modelled from the spec: consumption of the optional leading sign of a
numeral: `true` when a `-` was consumed. -/
def parseSign (l : List Char) : Bool × List Char :=
  match l with
  | [] => (false, [])
  | c :: t =>
    if c = '-' then (true, t)
    else if c = '+' then (false, t)
    else (false, c :: t)

/-- Modelled from the spec: digit accumulation
`magnitude = magnitude * radix + digit_value` per character; `none` on a
character invalid for the radix. -/
def parseDigits (r : Nat) (acc : Nat) : List Char → Option Nat
  | [] => some acc
  | c :: t =>
    match digitVal c with
    | some d => if d < r then parseDigits r (acc * r + d) t else none
    | none => none

/-- Modelled from the spec: `bignum_from_string` — an optional leading
sign, then a nonempty run of characters valid for the radix; fails with
MalformedNumeral on an invalid character, an empty digit run, or a radix
outside [2,36]. -/
def bignum_from_string (str : List Char) (radix : Nat) :
    Except BignumError Value :=
  if radix < 2 ∨ 36 < radix then Except.error BignumError.MalformedNumeral
  else if (parseSign str).2 = [] then Except.error BignumError.MalformedNumeral
  else
    match parseDigits radix 0 (parseSign str).2 with
    | none => Except.error BignumError.MalformedNumeral
    | some n =>
      Except.ok (intToValue (if (parseSign str).1 then -(n : Int) else (n : Int)))

/-- Modelled from the spec: radix detection — `0x`/`0X` means 16,
`0b`/`0B` means 2, `0o`/`0O` means 8, a bare leading `0` followed by a
digit means 8, anything else means 10; the recognised leading characters
are stripped. -/
def detectRadix (str : List Char) : Nat × List Char :=
  match str with
  | c0 :: c1 :: t =>
    if c0 = '0' then
      if c1 = 'x' ∨ c1 = 'X' then (16, t)
      else if c1 = 'b' ∨ c1 = 'B' then (2, t)
      else if c1 = 'o' ∨ c1 = 'O' then (8, t)
      else if c1.isDigit then (8, c1 :: t)
      else (10, str)
    else (10, str)
  | _ => (10, str)

/-- Modelled from the spec: `bignum_from_string_detect` inspects the
leading characters, strips the recognised ones, and delegates to
`bignum_from_string` with the detected radix. -/
def bignum_from_string_detect (str : List Char) : Except BignumError Value :=
  bignum_from_string (detectRadix str).2 (detectRadix str).1

/-- The natural number denoted by a base-`r` digit sequence, least
significant digit first. -/
def digitsVal (r : Nat) : List Nat → Nat
  | [] => 0
  | d :: t => d + r * digitsVal r t

/-- Whether a character is a digit valid for radix `r`. -/
def validDigitFor (r : Nat) (c : Char) : Bool :=
  match digitVal c with
  | some d => decide (d < r)
  | none => false

/-- Modelled from the spec: `bignum_new` constructs a Value from a signed
machine integer, splitting it into sign and magnitude and returning the
normalized (canonical) representation. -/
def bignum_new (num : Int) : Value := intToValue num

/-- Modelled from the spec: `bignum_new_unsigned` constructs a Value from
an unsigned machine integer. -/
def bignum_new_unsigned (num : Nat) : Value := mkValue Sign.Pos num

/-- Modelled from the spec: `bignum_and` combines the operands' infinite
two's-complement bit sequences position-by-position with AND (each operand
sign-extended beyond its own length) and converts the combined bit pattern
back to canonical sign-magnitude form — the contract of the integer
bitwise AND. -/
def bignum_and (a b : Value) : Value := intToValue (Int.land (toInt a) (toInt b))

/-- Modelled from the spec: `bignum_or` — position-by-position OR of the
operands' infinite two's-complement bit sequences, converted back to
canonical sign-magnitude form. -/
def bignum_or (a b : Value) : Value := intToValue (Int.lor (toInt a) (toInt b))

/-- Modelled from the spec: `bignum_xor` — position-by-position XOR of the
operands' infinite two's-complement bit sequences, converted back to
canonical sign-magnitude form. -/
def bignum_xor (a b : Value) : Value := intToValue (Int.xor (toInt a) (toInt b))

/-- Modelled from the spec: a double-precision input to the Float Bridge,
abstracted as its IEEE class — NaN, an infinity, or a finite value given
exactly by sign, mantissa and binary exponent (value `±m * 2^e`). -/
inductive DoubleVal where
  | NaN : DoubleVal
  | PosInf : DoubleVal
  | NegInf : DoubleVal
  | Finite : Bool → Nat → Int → DoubleVal
deriving DecidableEq

/-- Modelled from the spec: `bignum_from_double` fails with NonFiniteFloat
on NaN or an infinity; otherwise it truncates the fractional part toward
zero and constructs the magnitude from the integral part's mantissa and
exponent (a negative exponent truncates the magnitude by integer division,
which discards the fraction toward zero in sign-magnitude form). -/
def bignum_from_double (d : DoubleVal) : Except BignumError Value :=
  match d with
  | DoubleVal.NaN => Except.error BignumError.NonFiniteFloat
  | DoubleVal.PosInf => Except.error BignumError.NonFiniteFloat
  | DoubleVal.NegInf => Except.error BignumError.NonFiniteFloat
  | DoubleVal.Finite neg m e =>
    Except.ok (mkValue (if neg then Sign.Neg else Sign.Pos)
      (if 0 ≤ e then m * 2 ^ e.toNat else m / 2 ^ (-e).toNat))

/-! ### Limb encoding lemmas -/

theorem limbBase_two_le : 2 ≤ limbBase := by norm_num [limbBase]

theorem natToLimbsAux_zero (f : Nat) : natToLimbsAux f 0 = [] := by
  cases f <;> simp [natToLimbsAux]

theorem limbsVal_natToLimbsAux :
    ∀ f n, n ≤ f → limbsVal (natToLimbsAux f n) = n := by
  intro f
  induction f with
  | zero => intro n h; interval_cases n; simp [natToLimbsAux, limbsVal]
  | succ f ih =>
    intro n h
    by_cases h0 : n = 0
    · subst h0; simp [natToLimbsAux, limbsVal]
    · have hdiv : n / limbBase < n :=
        Nat.div_lt_self (Nat.pos_of_ne_zero h0) (by norm_num [limbBase])
      have hle : n / limbBase ≤ f := by omega
      simp only [natToLimbsAux, if_neg h0, limbsVal, ih _ hle]
      exact Nat.mod_add_div n limbBase

theorem limbsVal_natToLimbs (n : Nat) : limbsVal (natToLimbs n) = n :=
  limbsVal_natToLimbsAux n n le_rfl

theorem natToLimbsAux_bounded :
    ∀ f n d, d ∈ natToLimbsAux f n → d < limbBase := by
  intro f
  induction f with
  | zero => intro n d h; simp [natToLimbsAux] at h
  | succ f ih =>
    intro n d h
    by_cases h0 : n = 0
    · subst h0; simp [natToLimbsAux] at h
    · simp only [natToLimbsAux, if_neg h0, List.mem_cons] at h
      rcases h with h | h
      · subst h; exact Nat.mod_lt n (by norm_num [limbBase])
      · exact ih _ _ h

theorem natToLimbsAux_ne_nil (f n : Nat) (h0 : n ≠ 0) (hf : n ≤ f) :
    natToLimbsAux f n ≠ [] := by
  cases f with
  | zero => omega
  | succ f => simp [natToLimbsAux, if_neg h0]

theorem getLast?_cons_of_ne_nil {α : Type} (a : α) {t : List α} (h : t ≠ []) :
    (a :: t).getLast? = t.getLast? := by
  cases t with
  | nil => exact absurd rfl h
  | cons b u => exact List.getLast?_cons_cons

theorem natToLimbsAux_noLead :
    ∀ f n, n ≤ f → noLeadingZeroLimb (natToLimbsAux f n) := by
  intro f
  induction f with
  | zero =>
    intro n h
    interval_cases n
    simp [natToLimbsAux, noLeadingZeroLimb]
  | succ f ih =>
    intro n h
    by_cases h0 : n = 0
    · subst h0; simp [natToLimbsAux, noLeadingZeroLimb]
    · simp only [natToLimbsAux, if_neg h0]
      by_cases hq : n / limbBase = 0
      · have hsmall : n < limbBase := by
          have hdm := Nat.div_add_mod n limbBase
          have hm := Nat.mod_lt n (show 0 < limbBase by norm_num [limbBase])
          rw [hq, Nat.mul_zero, Nat.zero_add] at hdm
          omega
        rw [hq, natToLimbsAux_zero]
        simp [noLeadingZeroLimb, Nat.mod_eq_of_lt hsmall, h0]
      · have hdiv : n / limbBase < n :=
          Nat.div_lt_self (Nat.pos_of_ne_zero h0) (by norm_num [limbBase])
        have hle : n / limbBase ≤ f := by omega
        have hne := natToLimbsAux_ne_nil f (n / limbBase) hq hle
        have := ih _ hle
        unfold noLeadingZeroLimb at *
        rwa [getLast?_cons_of_ne_nil _ hne]

theorem natToLimbs_noLead (n : Nat) : noLeadingZeroLimb (natToLimbs n) :=
  natToLimbsAux_noLead n n le_rfl

theorem natToLimbs_bounded (n : Nat) : ∀ d ∈ natToLimbs n, d < limbBase :=
  fun d h => natToLimbsAux_bounded n n d h

theorem natToLimbs_ne_nil (n : Nat) (h0 : n ≠ 0) : natToLimbs n ≠ [] :=
  natToLimbsAux_ne_nil n n h0 le_rfl

theorem limbsVal_eq_zero_iff (l : List Nat) :
    limbsVal l = 0 ↔ ∀ d ∈ l, d = 0 := by
  induction l with
  | nil => simp [limbsVal]
  | cons d t ih =>
    simp only [limbsVal, List.mem_cons]
    constructor
    · intro h
      have hd : d = 0 := by omega
      have ht : limbsVal t = 0 := by
        have : limbBase * limbsVal t = 0 := by omega
        have h2 := limbBase_two_le
        exact Nat.eq_zero_of_mul_eq_zero this |>.resolve_left (by omega)
      intro x hx
      rcases hx with hx | hx
      · omega
      · exact ih.mp ht x hx
    · intro h
      have hd : d = 0 := h d (Or.inl rfl)
      have ht : limbsVal t = 0 := ih.mpr fun x hx => h x (Or.inr hx)
      simp [hd, ht]

theorem limbsVal_ne_zero_of_noLead {l : List Nat} (hne : l ≠ [])
    (hnl : noLeadingZeroLimb l) : limbsVal l ≠ 0 := by
  intro h0
  have hall := (limbsVal_eq_zero_iff l).mp h0
  unfold noLeadingZeroLimb at hnl
  cases l with
  | nil => exact hne rfl
  | cons d t =>
    have hmem := List.getLast_mem (l := d :: t) (by simp)
    have hlast : (d :: t).getLast? = some ((d :: t).getLast (by simp)) := by
      simp [List.getLast?_eq_getLast]
    rw [hlast] at hnl
    exact hnl (by simp [hall _ hmem])

theorem natToLimbsAux_recover :
    ∀ (l : List Nat) (f : Nat), limbsVal l ≤ f →
      (∀ d ∈ l, d < limbBase) → noLeadingZeroLimb l →
      natToLimbsAux f (limbsVal l) = l := by
  intro l
  induction l with
  | nil => intro f _ _ _; simp [limbsVal, natToLimbsAux_zero]
  | cons d t ih =>
    intro f hf hb hnl
    have hdB : d < limbBase := hb d (List.mem_cons_self d t)
    have hval : limbsVal (d :: t) = d + limbBase * limbsVal t := rfl
    by_cases ht : t = []
    · subst ht
      have hd0 : d ≠ 0 := by
        unfold noLeadingZeroLimb at hnl; simpa using hnl
      have hval' : limbsVal [d] = d := by simp [limbsVal]
      rw [hval'] at hf ⊢
      cases f with
      | zero => omega
      | succ f =>
        simp only [natToLimbsAux, if_neg hd0]
        rw [Nat.mod_eq_of_lt hdB, Nat.div_eq_of_lt hdB, natToLimbsAux_zero]
    · have hnlt : noLeadingZeroLimb t := by
        unfold noLeadingZeroLimb at *
        rwa [getLast?_cons_of_ne_nil _ ht] at hnl
      have hvt : limbsVal t ≠ 0 := limbsVal_ne_zero_of_noLead ht hnlt
      have hB := limbBase_two_le
      have hne0 : d + limbBase * limbsVal t ≠ 0 := by
        have : 0 < limbBase * limbsVal t :=
          Nat.mul_pos (by omega) (Nat.pos_of_ne_zero hvt)
        omega
      cases f with
      | zero => rw [hval] at hf; omega
      | succ f =>
        rw [hval]
        simp only [natToLimbsAux, if_neg hne0]
        have hmod : (d + limbBase * limbsVal t) % limbBase = d := by
          rw [Nat.add_mul_mod_self_left d limbBase (limbsVal t), Nat.mod_eq_of_lt hdB]
        have hdivq : (d + limbBase * limbsVal t) / limbBase = limbsVal t := by
          rw [Nat.add_mul_div_left d (limbsVal t) (by omega), Nat.div_eq_of_lt hdB]
          omega
        rw [hmod, hdivq]
        have hle : limbsVal t ≤ f := by
          rw [hval] at hf
          nlinarith [Nat.pos_of_ne_zero hvt]
        rw [ih f hle (fun x hx => hb x (List.mem_cons_of_mem d hx)) hnlt]

theorem natToLimbs_recover (l : List Nat) (hb : ∀ d ∈ l, d < limbBase)
    (hnl : noLeadingZeroLimb l) : natToLimbs (limbsVal l) = l :=
  natToLimbsAux_recover l (limbsVal l) le_rfl hb hnl

/-! ### Canonicity of the value constructors -/

theorem canonical_zeroValue : Canonical zeroValue := by decide

theorem mkValue_canonical {s : Sign} (hs : s ≠ Sign.Zero) (n : Nat) :
    Canonical (mkValue s n) := by
  unfold mkValue
  by_cases h0 : n = 0
  · simp [h0, canonical_zeroValue]
  · simp only [if_neg h0]
    exact ⟨natToLimbs_bounded n, natToLimbs_noLead n,
      by simp [hs, natToLimbs_ne_nil n h0]⟩

theorem mkValue_sign (s : Sign) (n : Nat) :
    (mkValue s n).sign = if n = 0 then Sign.Zero else s := by
  unfold mkValue
  by_cases h0 : n = 0 <;> simp [h0, zeroValue]

theorem toInt_mkValue_pos (n : Nat) : toInt (mkValue Sign.Pos n) = (n : Int) := by
  unfold mkValue
  by_cases h0 : n = 0
  · simp [h0, toInt, zeroValue, magVal, limbsVal]
  · simp [if_neg h0, toInt, magVal, limbsVal_natToLimbs]

theorem toInt_mkValue_neg (n : Nat) : toInt (mkValue Sign.Neg n) = -(n : Int) := by
  unfold mkValue
  by_cases h0 : n = 0
  · simp [h0, toInt, zeroValue, magVal, limbsVal]
  · simp [if_neg h0, toInt, magVal, limbsVal_natToLimbs]

theorem toInt_mkValue_zero (n : Nat) : toInt (mkValue Sign.Zero n) = 0 := by
  unfold mkValue
  by_cases h0 : n = 0
  · simp [h0, toInt, zeroValue]
  · simp [if_neg h0, toInt]

theorem intToValue_canonical (z : Int) : Canonical (intToValue z) := by
  unfold intToValue
  by_cases h0 : z = 0
  · simp [h0, canonical_zeroValue]
  · by_cases hp : 0 < z
    · simp only [if_neg h0, if_pos hp]
      exact mkValue_canonical (by simp) _
    · simp only [if_neg h0, if_neg hp]
      exact mkValue_canonical (by simp) _

theorem toInt_intToValue (z : Int) : toInt (intToValue z) = z := by
  unfold intToValue
  by_cases h0 : z = 0
  · simp [h0, toInt, zeroValue, magVal, limbsVal]
  · by_cases hp : 0 < z
    · simp only [if_neg h0, if_pos hp, toInt_mkValue_pos]
      omega
    · simp only [if_neg h0, if_neg hp, toInt_mkValue_neg]
      omega

theorem magVal_ne_zero_of_canonical {v : Value} (hv : Canonical v)
    (hs : v.sign ≠ Sign.Zero) : magVal v ≠ 0 := by
  obtain ⟨hb, hnl, hiff⟩ := hv
  have hne : v.mag ≠ [] := fun h => hs (hiff.mpr h)
  exact limbsVal_ne_zero_of_noLead hne hnl

theorem intToValue_toInt {v : Value} (hv : Canonical v) :
    intToValue (toInt v) = v := by
  obtain ⟨hb, hnl, hiff⟩ := hv
  cases v with
  | mk s mag =>
    cases s with
    | Zero =>
      have : mag = [] := hiff.mp rfl
      subst this
      simp [toInt, intToValue, zeroValue]
    | Pos =>
      have hne : mag ≠ [] := fun h => Sign.noConfusion (hiff.mpr h)
      have hval : limbsVal mag ≠ 0 := limbsVal_ne_zero_of_noLead hne hnl
      simp only [toInt, magVal]
      unfold intToValue
      rw [if_neg (by exact_mod_cast hval), if_pos (by exact_mod_cast Nat.pos_of_ne_zero hval)]
      unfold mkValue
      rw [if_neg (by simpa using hval)]
      simp only [Int.natAbs_ofNat]
      rw [natToLimbs_recover mag (by simpa using hb) hnl]
    | Neg =>
      have hne : mag ≠ [] := fun h => Sign.noConfusion (hiff.mpr h)
      have hval : limbsVal mag ≠ 0 := limbsVal_ne_zero_of_noLead hne hnl
      simp only [toInt, magVal]
      unfold intToValue
      rw [if_neg (by simpa using hval), if_neg (by simp)]
      unfold mkValue
      rw [if_neg (by simpa using hval)]
      simp only [Int.natAbs_neg, Int.natAbs_ofNat]
      rw [natToLimbs_recover mag (by simpa using hb) hnl]

theorem mkValue_pos_eq_intToValue (n : Nat) :
    mkValue Sign.Pos n = intToValue (n : Int) := by
  by_cases h0 : n = 0
  · simp [h0, mkValue, intToValue]
  · unfold intToValue
    rw [if_neg (by exact_mod_cast h0),
      if_pos (by exact_mod_cast Nat.pos_of_ne_zero h0), Int.natAbs_ofNat]

theorem mkValue_neg_eq_intToValue (n : Nat) :
    mkValue Sign.Neg n = intToValue (-(n : Int)) := by
  by_cases h0 : n = 0
  · simp [h0, mkValue, intToValue]
  · unfold intToValue
    rw [if_neg (by simpa using h0), if_neg (by simp), Int.natAbs_neg, Int.natAbs_ofNat]

/-! ### Normalizer lemmas -/

theorem dropWhile_dropWhile {α : Type} (p : α → Bool) (l : List α) :
    (l.dropWhile p).dropWhile p = l.dropWhile p := by
  induction l with
  | nil => rfl
  | cons a t ih =>
    by_cases hp : p a
    · simp [List.dropWhile_cons, hp, ih]
    · simp [List.dropWhile_cons, hp]

theorem mem_of_mem_dropWhile {α : Type} {p : α → Bool} {l : List α} {a : α}
    (h : a ∈ l.dropWhile p) : a ∈ l := by
  induction l with
  | nil => simpa using h
  | cons b t ih =>
    by_cases hp : p b
    · simp only [List.dropWhile_cons, hp, if_pos] at h
      exact List.mem_cons_of_mem b (ih h)
    · simp only [List.dropWhile_cons, hp] at h
      simpa using h

theorem head?_dropWhile_false {α : Type} {p : α → Bool} {l : List α} {a : α}
    (h : (l.dropWhile p).head? = some a) : p a = false := by
  induction l with
  | nil => simp at h
  | cons b t ih =>
    rw [List.dropWhile_cons] at h
    by_cases hp : p b = true
    · rw [if_pos hp] at h
      exact ih h
    · rw [if_neg hp] at h
      simp only [List.head?_cons, Option.some.injEq] at h
      subst h
      simpa using hp

theorem stripMSZeros_idem (l : List Nat) :
    stripMSZeros (stripMSZeros l) = stripMSZeros l := by
  unfold stripMSZeros
  rw [List.reverse_reverse, dropWhile_dropWhile]

theorem stripMSZeros_eq_self {l : List Nat} (hnl : noLeadingZeroLimb l) :
    stripMSZeros l = l := by
  unfold stripMSZeros
  unfold noLeadingZeroLimb at hnl
  rw [← List.head?_reverse] at hnl
  cases hrev : l.reverse with
  | nil =>
    have : l = [] := by simpa using congrArg List.reverse hrev
    simp [this]
  | cons a t =>
    rw [hrev] at hnl
    simp only [List.head?_cons] at hnl
    have ha : ¬ (a = 0) := fun h => hnl (by simp [h])
    rw [List.dropWhile_cons, if_neg (by simpa using ha), ← hrev,
      List.reverse_reverse]

theorem bignum_normalize_idem (v : Value) :
    bignum_normalize (bignum_normalize v) = bignum_normalize v := by
  by_cases h : stripMSZeros v.mag = []
  · have hv : bignum_normalize v = zeroValue := by
      rw [bignum_normalize, if_pos h]
    rw [hv]
    rfl
  · have hv : bignum_normalize v = { sign := v.sign, mag := stripMSZeros v.mag } := by
      rw [bignum_normalize, if_neg h]
    rw [hv, bignum_normalize]
    show (if stripMSZeros (stripMSZeros v.mag) = [] then zeroValue
        else { sign := v.sign, mag := stripMSZeros (stripMSZeros v.mag) }) =
      { sign := v.sign, mag := stripMSZeros v.mag }
    rw [stripMSZeros_idem, if_neg h]

theorem stripMSZeros_eq_nil_iff (l : List Nat) :
    stripMSZeros l = [] ↔ limbsVal l = 0 := by
  unfold stripMSZeros
  rw [limbsVal_eq_zero_iff]
  constructor
  · intro h d hd
    have hdw : l.reverse.dropWhile (fun d => d = 0) = [] := by
      have := congrArg List.reverse h
      simpa using this
    have hall := List.dropWhile_eq_nil_iff.mp hdw
    have := hall d (by simpa using hd)
    simpa using this
  · intro h
    have : l.reverse.dropWhile (fun d => d = 0) = [] :=
      List.dropWhile_eq_nil_iff.mpr fun a ha => by
        simpa using h a (by simpa using ha)
    simp [this]

theorem mem_of_mem_stripMSZeros {l : List Nat} {d : Nat}
    (hd : d ∈ stripMSZeros l) : d ∈ l := by
  have h1 : d ∈ l.reverse.dropWhile (fun x => decide (x = 0)) :=
    (List.mem_reverse).mp hd
  exact (List.mem_reverse).mp (mem_of_mem_dropWhile h1)

theorem noLead_stripMSZeros (l : List Nat) :
    noLeadingZeroLimb (stripMSZeros l) := by
  unfold noLeadingZeroLimb stripMSZeros
  intro hlast
  rw [List.getLast?_reverse] at hlast
  have := head?_dropWhile_false hlast
  simp at this

theorem bignum_normalize_canonical {v : Value} (hv : RawWellFormed v) :
    Canonical (bignum_normalize v) := by
  obtain ⟨hb, hiff⟩ := hv
  rw [bignum_normalize]
  by_cases h : stripMSZeros v.mag = []
  · rw [if_pos h]
    exact canonical_zeroValue
  · rw [if_neg h]
    have hval : limbsVal v.mag ≠ 0 := fun h0 =>
      h ((stripMSZeros_eq_nil_iff v.mag).mpr h0)
    have hsign : v.sign ≠ Sign.Zero := fun hs => hval (hiff.mp hs)
    exact ⟨fun d hd => hb d (mem_of_mem_stripMSZeros hd),
      noLead_stripMSZeros v.mag, by simp [hsign, h]⟩

theorem bignum_normalize_of_canonical {v : Value} (hv : Canonical v) :
    bignum_normalize v = v := by
  obtain ⟨hb, hnl, hiff⟩ := hv
  rw [bignum_normalize, stripMSZeros_eq_self hnl]
  by_cases h : v.mag = []
  · rw [if_pos h]
    have hs := hiff.mpr h
    cases v with
    | mk s mag =>
      simp only at hs h
      subst hs
      subst h
      rfl
  · rw [if_neg h]

/-! ### Arithmetic homomorphism lemmas -/

theorem toInt_zero_sign {v : Value} (h : v.sign = Sign.Zero) : toInt v = 0 := by
  unfold toInt
  rw [h]

theorem toInt_pos_sign {v : Value} (h : v.sign = Sign.Pos) :
    toInt v = (magVal v : Int) := by
  unfold toInt
  rw [h]

theorem toInt_neg_sign {v : Value} (h : v.sign = Sign.Neg) :
    toInt v = -(magVal v : Int) := by
  unfold toInt
  rw [h]

theorem magVal_zero_of_canonical {v : Value} (hv : Canonical v)
    (h : v.sign = Sign.Zero) : magVal v = 0 := by
  have := hv.2.2.mp h
  simp [magVal, this, limbsVal]

theorem bignum_add_eq {a b : Value} (ha : Canonical a) (hb : Canonical b) :
    bignum_add a b = intToValue (toInt a + toInt b) := by
  rcases hsa : a.sign with hsa' | hsa' | hsa' <;>
    rcases hsb : b.sign with hsb' | hsb' | hsb' <;>
    simp only [bignum_add, hsa, hsb]
  case Pos.Pos =>
    rw [if_pos trivial, toInt_pos_sign hsa, toInt_pos_sign hsb, mkValue_pos_eq_intToValue]
    norm_cast
  case Pos.Neg =>
    rw [toInt_pos_sign hsa, toInt_neg_sign hsb]
    rcases Nat.lt_trichotomy (magVal b) (magVal a) with h | h | h
    · rw [if_neg (by decide), if_pos h, mkValue_pos_eq_intToValue]
      congr 1
      have : (magVal b : Int) ≤ magVal a := by exact_mod_cast h.le
      push_cast [Nat.cast_sub h.le]
      ring
    · rw [if_neg (by decide), if_neg (by omega), if_neg (by omega)]
      rw [show (magVal a : Int) + -(magVal b : Int) = 0 by omega]
      rfl
    · rw [if_neg (by decide), if_neg (by omega), if_pos h, mkValue_neg_eq_intToValue]
      congr 1
      push_cast [Nat.cast_sub h.le]
      ring
  case Pos.Zero =>
    rw [toInt_zero_sign hsb, bignum_normalize_of_canonical ha, Int.add_zero,
      intToValue_toInt ha]
  case Neg.Pos =>
    rw [toInt_neg_sign hsa, toInt_pos_sign hsb]
    rcases Nat.lt_trichotomy (magVal b) (magVal a) with h | h | h
    · rw [if_neg (by decide), if_pos h, mkValue_neg_eq_intToValue]
      congr 1
      push_cast [Nat.cast_sub h.le]
      ring
    · rw [if_neg (by decide), if_neg (by omega), if_neg (by omega)]
      rw [show -(magVal a : Int) + (magVal b : Int) = 0 by omega]
      rfl
    · rw [if_neg (by decide), if_neg (by omega), if_pos h, mkValue_pos_eq_intToValue]
      congr 1
      push_cast [Nat.cast_sub h.le]
      ring
  case Neg.Neg =>
    rw [if_pos trivial, toInt_neg_sign hsa, toInt_neg_sign hsb, mkValue_neg_eq_intToValue]
    congr 1
    push_cast
    ring_nf
  case Neg.Zero =>
    rw [toInt_zero_sign hsb, bignum_normalize_of_canonical ha, Int.add_zero,
      intToValue_toInt ha]
  case Zero.Pos =>
    rw [toInt_zero_sign hsa, bignum_normalize_of_canonical hb, Int.zero_add,
      intToValue_toInt hb]
  case Zero.Neg =>
    rw [toInt_zero_sign hsa, bignum_normalize_of_canonical hb, Int.zero_add,
      intToValue_toInt hb]
  case Zero.Zero =>
    rw [toInt_zero_sign hsa, bignum_normalize_of_canonical hb, Int.zero_add,
      intToValue_toInt hb]

theorem bignum_mul_eq (a b : Value) :
    bignum_mul a b = intToValue (toInt a * toInt b) := by
  rcases hsa : a.sign with hsa' | hsa' | hsa' <;>
    rcases hsb : b.sign with hsb' | hsb' | hsb' <;>
    simp only [bignum_mul, hsa, hsb, signMul]
  case Pos.Pos =>
    rw [toInt_pos_sign hsa, toInt_pos_sign hsb]
    rw [if_pos trivial, mkValue_pos_eq_intToValue]
    norm_cast
  case Pos.Neg =>
    rw [toInt_pos_sign hsa, toInt_neg_sign hsb]
    rw [if_neg (by decide), mkValue_neg_eq_intToValue]
    congr 1
    push_cast
    ring
  case Pos.Zero =>
    rw [toInt_zero_sign hsb, Int.mul_zero]
    rfl
  case Neg.Pos =>
    rw [toInt_neg_sign hsa, toInt_pos_sign hsb]
    rw [if_neg (by decide), mkValue_neg_eq_intToValue]
    congr 1
    push_cast
    ring
  case Neg.Neg =>
    rw [toInt_neg_sign hsa, toInt_neg_sign hsb]
    rw [if_pos trivial, mkValue_pos_eq_intToValue]
    congr 1
    push_cast
    ring
  case Neg.Zero =>
    rw [toInt_zero_sign hsb, Int.mul_zero]
    rfl
  case Zero.Pos =>
    rw [toInt_zero_sign hsa, Int.zero_mul]
    rfl
  case Zero.Neg =>
    rw [toInt_zero_sign hsa, Int.zero_mul]
    rfl
  case Zero.Zero =>
    rw [toInt_zero_sign hsa, Int.zero_mul]
    rfl

theorem toInt_bignum_invert (v : Value) :
    toInt (bignum_invert v) = -(toInt v) - 1 := by
  rw [bignum_invert, toInt_intToValue]

theorem bignum_invert_canonical (v : Value) : Canonical (bignum_invert v) :=
  intToValue_canonical _

theorem bignum_neg_eq {v : Value} (hv : Canonical v) :
    bignum_neg v = intToValue (-(toInt v)) := by
  rw [bignum_neg, bignum_add_eq (bignum_invert_canonical v) (intToValue_canonical 1)]
  rw [toInt_bignum_invert, toInt_intToValue]
  ring_nf

theorem toInt_bignum_neg {v : Value} (hv : Canonical v) :
    toInt (bignum_neg v) = -(toInt v) := by
  rw [bignum_neg_eq hv, toInt_intToValue]

theorem bignum_neg_canonical {v : Value} (hv : Canonical v) :
    Canonical (bignum_neg v) := by
  rw [bignum_neg_eq hv]
  exact intToValue_canonical _

theorem bignum_sub_eq {a b : Value} (ha : Canonical a) (hb : Canonical b) :
    bignum_sub a b = intToValue (toInt a - toInt b) := by
  rw [bignum_sub, bignum_add_eq ha (bignum_neg_canonical hb), toInt_bignum_neg hb]
  ring_nf

theorem bignum_add_canonical {a b : Value} (ha : Canonical a) (hb : Canonical b) :
    Canonical (bignum_add a b) := by
  rw [bignum_add_eq ha hb]
  exact intToValue_canonical _

theorem bignum_sub_canonical {a b : Value} (ha : Canonical a) (hb : Canonical b) :
    Canonical (bignum_sub a b) := by
  rw [bignum_sub_eq ha hb]
  exact intToValue_canonical _

theorem bignum_mul_canonical (a b : Value) : Canonical (bignum_mul a b) := by
  rw [bignum_mul_eq a b]
  exact intToValue_canonical _

/-! ### Division lemmas -/

theorem bignum_div_spec {a b : Value} (ha : Canonical a) (hb : Canonical b)
    (hbs : b.sign ≠ Sign.Zero) {q r : Value}
    (h : bignum_div a b = Except.ok (q, r)) :
    toInt q * toInt b + toInt r = toInt a ∧
      (r.sign = Sign.Zero ∨ r.sign = b.sign) ∧ Canonical q ∧ Canonical r := by
  have hmb : magVal b ≠ 0 := magVal_ne_zero_of_canonical hb hbs
  have hmlt : magVal a % magVal b < magVal b :=
    Nat.mod_lt _ (Nat.pos_of_ne_zero hmb)
  have hdmZ : (magVal a : Int) =
      (magVal b : Int) * ((magVal a / magVal b : Nat) : Int) +
        ((magVal a % magVal b : Nat) : Int) := by
    exact_mod_cast (Nat.div_add_mod (magVal a) (magVal b)).symm
  rw [bignum_div, if_neg hbs] at h
  rcases hsa : a.sign with _ | _ | _ <;> rcases hsb : b.sign with _ | _ | _
  case Pos.Pos =>
    have hsm : signMul a.sign b.sign = Sign.Pos := by rw [hsa, hsb]; decide
    rw [hsm, hsb, if_neg (by simp)] at h
    simp only [Except.ok.injEq, Prod.mk.injEq] at h
    obtain ⟨hq, hr⟩ := h
    subst hq
    subst hr
    refine ⟨?_, ?_, mkValue_canonical (by decide) _, mkValue_canonical (by decide) _⟩
    · rw [toInt_mkValue_pos, toInt_mkValue_pos, toInt_pos_sign hsa,
        toInt_pos_sign hsb, hdmZ]
      ring
    · by_cases h0 : magVal a % magVal b = 0
      · exact Or.inl (by rw [mkValue_sign, if_pos h0])
      · exact Or.inr (by rw [mkValue_sign, if_neg h0])
  case Pos.Neg =>
    have hsm : signMul a.sign b.sign = Sign.Neg := by rw [hsa, hsb]; decide
    rw [hsm, hsb] at h
    by_cases h0 : magVal a % magVal b = 0
    · rw [if_neg (by simp [h0])] at h
      simp only [Except.ok.injEq, Prod.mk.injEq] at h
      obtain ⟨hq, hr⟩ := h
      subst hq
      subst hr
      refine ⟨?_, ?_, mkValue_canonical (by decide) _, mkValue_canonical (by decide) _⟩
      · rw [toInt_mkValue_neg, toInt_mkValue_neg, toInt_pos_sign hsa,
          toInt_neg_sign hsb, hdmZ, h0]
        push_cast
        ring
      · exact Or.inl (by rw [mkValue_sign, if_pos h0])
    · rw [if_pos ⟨rfl, h0⟩] at h
      simp only [Except.ok.injEq, Prod.mk.injEq] at h
      obtain ⟨hq, hr⟩ := h
      subst hq
      subst hr
      refine ⟨?_, ?_, mkValue_canonical (by decide) _, mkValue_canonical (by decide) _⟩
      · rw [toInt_mkValue_neg, toInt_mkValue_neg, toInt_pos_sign hsa,
          toInt_neg_sign hsb, hdmZ]
        push_cast [Nat.cast_sub hmlt.le]
        ring
      · by_cases hz : magVal b - magVal a % magVal b = 0
        · exact Or.inl (by rw [mkValue_sign, if_pos hz])
        · exact Or.inr (by rw [mkValue_sign, if_neg hz])
  case Pos.Zero => exact absurd hsb hbs
  case Neg.Pos =>
    have hsm : signMul a.sign b.sign = Sign.Neg := by rw [hsa, hsb]; decide
    rw [hsm, hsb] at h
    by_cases h0 : magVal a % magVal b = 0
    · rw [if_neg (by simp [h0])] at h
      simp only [Except.ok.injEq, Prod.mk.injEq] at h
      obtain ⟨hq, hr⟩ := h
      subst hq
      subst hr
      refine ⟨?_, ?_, mkValue_canonical (by decide) _, mkValue_canonical (by decide) _⟩
      · rw [toInt_mkValue_neg, toInt_mkValue_pos, toInt_neg_sign hsa,
          toInt_pos_sign hsb, hdmZ, h0]
        push_cast
        ring
      · exact Or.inl (by rw [mkValue_sign, if_pos h0])
    · rw [if_pos ⟨rfl, h0⟩] at h
      simp only [Except.ok.injEq, Prod.mk.injEq] at h
      obtain ⟨hq, hr⟩ := h
      subst hq
      subst hr
      refine ⟨?_, ?_, mkValue_canonical (by decide) _, mkValue_canonical (by decide) _⟩
      · rw [toInt_mkValue_neg, toInt_mkValue_pos, toInt_neg_sign hsa,
          toInt_pos_sign hsb, hdmZ]
        push_cast [Nat.cast_sub hmlt.le]
        ring
      · by_cases hz : magVal b - magVal a % magVal b = 0
        · exact Or.inl (by rw [mkValue_sign, if_pos hz])
        · exact Or.inr (by rw [mkValue_sign, if_neg hz])
  case Neg.Neg =>
    have hsm : signMul a.sign b.sign = Sign.Pos := by rw [hsa, hsb]; decide
    rw [hsm, hsb, if_neg (by simp)] at h
    simp only [Except.ok.injEq, Prod.mk.injEq] at h
    obtain ⟨hq, hr⟩ := h
    subst hq
    subst hr
    refine ⟨?_, ?_, mkValue_canonical (by decide) _, mkValue_canonical (by decide) _⟩
    · rw [toInt_mkValue_pos, toInt_mkValue_neg, toInt_neg_sign hsa,
        toInt_neg_sign hsb, hdmZ]
      ring
    · by_cases h0 : magVal a % magVal b = 0
      · exact Or.inl (by rw [mkValue_sign, if_pos h0])
      · exact Or.inr (by rw [mkValue_sign, if_neg h0])
  case Neg.Zero => exact absurd hsb hbs
  case Zero.Pos =>
    have hsm : signMul a.sign b.sign = Sign.Zero := by rw [hsa, hsb]; decide
    have ham : magVal a = 0 := magVal_zero_of_canonical ha hsa
    rw [hsm, hsb, if_neg (by simp)] at h
    simp only [Except.ok.injEq, Prod.mk.injEq] at h
    obtain ⟨hq, hr⟩ := h
    subst hq
    subst hr
    have hq0 : magVal a / magVal b = 0 := by rw [ham]; exact Nat.zero_div _
    have hr0 : magVal a % magVal b = 0 := by rw [ham]; exact Nat.zero_mod _
    refine ⟨?_, Or.inl (by rw [mkValue_sign, if_pos hr0]), ?_, ?_⟩
    · rw [toInt_mkValue_zero, toInt_zero_sign hsa, hr0]
      simp [toInt_mkValue_pos]
    · rw [hq0]
      show Canonical (mkValue Sign.Zero 0)
      rw [mkValue]
      simp [canonical_zeroValue]
    · rw [hr0]
      show Canonical (mkValue Sign.Pos 0)
      rw [mkValue]
      simp [canonical_zeroValue]
  case Zero.Neg =>
    have hsm : signMul a.sign b.sign = Sign.Zero := by rw [hsa, hsb]; decide
    have ham : magVal a = 0 := magVal_zero_of_canonical ha hsa
    rw [hsm, hsb, if_neg (by simp)] at h
    simp only [Except.ok.injEq, Prod.mk.injEq] at h
    obtain ⟨hq, hr⟩ := h
    subst hq
    subst hr
    have hq0 : magVal a / magVal b = 0 := by rw [ham]; exact Nat.zero_div _
    have hr0 : magVal a % magVal b = 0 := by rw [ham]; exact Nat.zero_mod _
    refine ⟨?_, Or.inl (by rw [mkValue_sign, if_pos hr0]), ?_, ?_⟩
    · rw [toInt_mkValue_zero, toInt_zero_sign hsa, hr0]
      simp [toInt_mkValue_neg]
    · rw [hq0]
      show Canonical (mkValue Sign.Zero 0)
      rw [mkValue]
      simp [canonical_zeroValue]
    · rw [hr0]
      show Canonical (mkValue Sign.Neg 0)
      rw [mkValue]
      simp [canonical_zeroValue]
  case Zero.Zero => exact absurd hsb hbs

theorem bignum_div_error_iff (a b : Value) :
    bignum_div a b = Except.error BignumError.DivisionByZero ↔
      b.sign = Sign.Zero := by
  constructor
  · intro h
    by_contra hbs
    rw [bignum_div, if_neg hbs] at h
    split at h <;> simp at h
  · intro h
    rw [bignum_div, if_pos h]

theorem bignum_div_ok_iff (a b : Value) :
    (∃ p, bignum_div a b = Except.ok p) ↔ b.sign ≠ Sign.Zero := by
  constructor
  · rintro ⟨p, hp⟩ hbs
    rw [bignum_div, if_pos hbs] at hp
    simp at hp
  · intro hbs
    rw [bignum_div, if_neg hbs]
    split
    · exact ⟨_, rfl⟩
    · exact ⟨_, rfl⟩

/-! ### Radix codec lemmas -/

theorem natDigitsAux_zero (r f : Nat) : natDigitsAux r f 0 = [] := by
  cases f <;> simp [natDigitsAux]

theorem digitsVal_natDigitsAux (r : Nat) (hr : 2 ≤ r) :
    ∀ f n, n ≤ f → digitsVal r (natDigitsAux r f n) = n := by
  intro f
  induction f with
  | zero =>
    intro n h
    interval_cases n
    simp [natDigitsAux, digitsVal]
  | succ f ih =>
    intro n h
    by_cases h0 : n = 0
    · subst h0; simp [natDigitsAux, digitsVal]
    · have hcond : ¬ (n = 0 ∨ r < 2) := by omega
      have hdiv : n / r < n := Nat.div_lt_self (Nat.pos_of_ne_zero h0) (by omega)
      have hle : n / r ≤ f := by omega
      simp only [natDigitsAux, if_neg hcond, digitsVal, ih _ hle]
      exact Nat.mod_add_div n r

theorem digitsVal_natDigitsRev (r n : Nat) (hr : 2 ≤ r) :
    digitsVal r (natDigitsRev r n) = n :=
  digitsVal_natDigitsAux r hr n n le_rfl

theorem natDigitsAux_lt (r : Nat) (hr : 2 ≤ r) :
    ∀ f n d, d ∈ natDigitsAux r f n → d < r := by
  intro f
  induction f with
  | zero => intro n d h; simp [natDigitsAux] at h
  | succ f ih =>
    intro n d h
    by_cases h0 : n = 0
    · subst h0; simp [natDigitsAux] at h
    · have hcond : ¬ (n = 0 ∨ r < 2) := by omega
      simp only [natDigitsAux, if_neg hcond, List.mem_cons] at h
      rcases h with h | h
      · subst h; exact Nat.mod_lt n (by omega)
      · exact ih _ _ h

theorem natDigitsRev_lt (r n : Nat) (hr : 2 ≤ r) :
    ∀ d ∈ natDigitsRev r n, d < r :=
  fun d h => natDigitsAux_lt r hr n n d h

theorem natDigitsRev_ne_nil (r n : Nat) (hr : 2 ≤ r) (h0 : n ≠ 0) :
    natDigitsRev r n ≠ [] := by
  unfold natDigitsRev
  cases n with
  | zero => omega
  | succ m =>
    have hcond : ¬ (m + 1 = 0 ∨ r < 2) := by omega
    simp only [natDigitsAux, if_neg hcond]
    simp

theorem digitVal_digitChar : ∀ d : Nat, d < 36 → digitVal (digitChar d) = some d := by
  decide

theorem digitChar_ne_sign : ∀ d : Nat, d < 36 →
    digitChar d ≠ '-' ∧ digitChar d ≠ '+' := by
  decide

theorem parseSign_cons_of_ne {c : Char} {t : List Char}
    (h1 : c ≠ '-') (h2 : c ≠ '+') : parseSign (c :: t) = (false, c :: t) := by
  rw [parseSign]
  rw [if_neg h1, if_neg h2]

theorem parseDigits_map (r : Nat) (hr36 : r ≤ 36) :
    ∀ (ds : List Nat) (acc : Nat), (∀ d ∈ ds, d < r) →
      parseDigits r acc (ds.map digitChar) =
        some (ds.foldl (fun a d => a * r + d) acc) := by
  intro ds
  induction ds with
  | nil => intro acc _; rfl
  | cons d t ih =>
    intro acc hlt
    have hd : d < r := hlt d (List.mem_cons_self d t)
    have hd36 : d < 36 := by omega
    simp only [List.map_cons, parseDigits, digitVal_digitChar d hd36, if_pos hd,
      List.foldl_cons]
    exact ih (acc * r + d) fun x hx => hlt x (List.mem_cons_of_mem d hx)

theorem foldl_reverse_digitsVal (r : Nat) :
    ∀ (ds : List Nat) (acc : Nat),
      (ds.reverse).foldl (fun a d => a * r + d) acc =
        acc * r ^ ds.length + digitsVal r ds := by
  intro ds
  induction ds with
  | nil => intro acc; simp [digitsVal]
  | cons d t ih =>
    intro acc
    simp only [List.reverse_cons, List.foldl_append, List.foldl_cons,
      List.foldl_nil, ih acc, digitsVal, List.length_cons]
    ring

theorem parseDigits_none_iff (r : Nat) :
    ∀ (l : List Char) (acc : Nat),
      (parseDigits r acc l = none ↔ ∃ c ∈ l, validDigitFor r c = false) := by
  intro l
  induction l with
  | nil => intro acc; simp [parseDigits]
  | cons c t ih =>
    intro acc
    cases hdv : digitVal c with
    | none =>
      simp only [parseDigits, hdv]
      constructor
      · intro _
        exact ⟨c, List.mem_cons_self c t, by simp [validDigitFor, hdv]⟩
      · intro _; trivial
    | some d =>
      by_cases hdr : d < r
      · simp only [parseDigits, hdv, if_pos hdr, ih]
        constructor
        · rintro ⟨x, hx, hvx⟩
          exact ⟨x, List.mem_cons_of_mem c hx, hvx⟩
        · rintro ⟨x, hx, hvx⟩
          rcases List.mem_cons.mp hx with hx | hx
          · subst hx
            simp [validDigitFor, hdv, hdr] at hvx
          · exact ⟨x, hx, hvx⟩
      · simp only [parseDigits, hdv, if_neg hdr]
        constructor
        · intro _
          exact ⟨c, List.mem_cons_self c t, by simp [validDigitFor, hdv, hdr]⟩
        · intro _; trivial

theorem parseDigits_some (r : Nat) :
    ∀ (l : List Char) (acc : Nat), (∀ c ∈ l, validDigitFor r c = true) →
      parseDigits r acc l =
        some (l.foldl (fun a c => a * r + (digitVal c).getD 0) acc) := by
  intro l
  induction l with
  | nil => intro acc _; rfl
  | cons c t ih =>
    intro acc hall
    have hc := hall c (List.mem_cons_self c t)
    cases hdv : digitVal c with
    | none => simp [validDigitFor, hdv] at hc
    | some d =>
      have hdr : d < r := by
        simp [validDigitFor, hdv] at hc
        exact hc
      simp only [parseDigits, hdv, if_pos hdr, List.foldl_cons, hdv, Option.getD_some]
      exact ih (acc * r + d) fun x hx => hall x (List.mem_cons_of_mem c hx)

theorem parseSign_dash (t : List Char) : parseSign ('-' :: t) = (true, t) := by
  simp [parseSign]

theorem bignum_from_string_ok_of (str : List Char) (radix : Nat) (n : Nat)
    (hradix : ¬(radix < 2 ∨ 36 < radix)) (hne : (parseSign str).2 ≠ [])
    (hpd : parseDigits radix 0 (parseSign str).2 = some n) :
    bignum_from_string str radix =
      Except.ok (intToValue (if (parseSign str).1 then -(n : Int) else (n : Int))) := by
  rw [bignum_from_string, if_neg hradix, if_neg hne, hpd]

/-- The Render/Parse round trip, claim C2's core statement. -/
theorem parse_render_roundtrip {v : Value} {radix : Nat} {s : List Char}
    (hv : Canonical v) (h2 : 2 ≤ radix) (h36 : radix ≤ 36)
    (hr : bignum_to_s v radix = Except.ok s) :
    bignum_from_string s radix = Except.ok v := by
  have hradix : ¬(radix < 2 ∨ 36 < radix) := by omega
  rw [bignum_to_s, if_neg hradix] at hr
  rcases hsv : v.sign with _ | _ | _ <;> rw [hsv] at hr
  case Pos =>
    rw [if_neg (by decide), if_neg (by decide)] at hr
    simp only [Except.ok.injEq] at hr
    subst hr
    have hm : magVal v ≠ 0 := magVal_ne_zero_of_canonical hv (by simp [hsv])
    have hLne : (natDigitsRev radix (magVal v)).reverse ≠ [] := by
      simp only [ne_eq, List.reverse_eq_nil_iff]
      exact natDigitsRev_ne_nil radix (magVal v) h2 hm
    have hLlt : ∀ d ∈ (natDigitsRev radix (magVal v)).reverse, d < radix :=
      fun d hd => natDigitsRev_lt radix (magVal v) h2 d ((List.mem_reverse).mp hd)
    obtain ⟨d0, t0, hL⟩ :
        ∃ d0 t0, (natDigitsRev radix (magVal v)).reverse = d0 :: t0 := by
      cases hL : (natDigitsRev radix (magVal v)).reverse with
      | nil => exact absurd hL hLne
      | cons x y => exact ⟨x, y, rfl⟩
    have hd0 : d0 < radix := hLlt d0 (by rw [hL]; exact List.mem_cons_self _ _)
    have hd36 : d0 < 36 := by omega
    have hps : parseSign (((natDigitsRev radix (magVal v)).reverse).map digitChar) =
        (false, ((natDigitsRev radix (magVal v)).reverse).map digitChar) := by
      rw [hL, List.map_cons]
      exact parseSign_cons_of_ne (digitChar_ne_sign d0 hd36).1
        (digitChar_ne_sign d0 hd36).2
    have hpd : parseDigits radix 0
        ((((natDigitsRev radix (magVal v)).reverse)).map digitChar) =
          some (magVal v) := by
      rw [parseDigits_map radix h36 _ 0 hLlt]
      congr 1
      rw [foldl_reverse_digitsVal radix _ 0,
        digitsVal_natDigitsRev radix (magVal v) h2]
      simp
    have hres := bignum_from_string_ok_of _ radix (magVal v) hradix
      (by rw [hps]; rw [hL, List.map_cons]; simp) (by rw [hps]; exact hpd)
    rw [hres, hps]
    simp only [Bool.false_eq_true, if_neg (by simp : ¬ False)]
    rw [show ((magVal v : Nat) : Int) = toInt v from (toInt_pos_sign hsv).symm,
      intToValue_toInt hv]
  case Neg =>
    rw [if_neg (by decide), if_pos rfl] at hr
    simp only [Except.ok.injEq] at hr
    subst hr
    have hm : magVal v ≠ 0 := magVal_ne_zero_of_canonical hv (by simp [hsv])
    have hLne : (natDigitsRev radix (magVal v)).reverse ≠ [] := by
      simp only [ne_eq, List.reverse_eq_nil_iff]
      exact natDigitsRev_ne_nil radix (magVal v) h2 hm
    have hLlt : ∀ d ∈ (natDigitsRev radix (magVal v)).reverse, d < radix :=
      fun d hd => natDigitsRev_lt radix (magVal v) h2 d ((List.mem_reverse).mp hd)
    have hps : parseSign
        ('-' :: (((natDigitsRev radix (magVal v)).reverse)).map digitChar) =
          (true, (((natDigitsRev radix (magVal v)).reverse)).map digitChar) :=
      parseSign_dash _
    have hpd : parseDigits radix 0
        ((((natDigitsRev radix (magVal v)).reverse)).map digitChar) =
          some (magVal v) := by
      rw [parseDigits_map radix h36 _ 0 hLlt]
      congr 1
      rw [foldl_reverse_digitsVal radix _ 0,
        digitsVal_natDigitsRev radix (magVal v) h2]
      simp
    have hres := bignum_from_string_ok_of _ radix (magVal v) hradix
      (by rw [hps]; simpa using natDigitsRev_ne_nil radix (magVal v) h2 hm)
      (by rw [hps]; exact hpd)
    rw [hres, hps]
    simp only [if_pos]
    rw [show -((magVal v : Nat) : Int) = toInt v from (toInt_neg_sign hsv).symm,
      intToValue_toInt hv]
  case Zero =>
    rw [if_pos rfl] at hr
    simp only [Except.ok.injEq] at hr
    subst hr
    have hmag : v.mag = [] := hv.2.2.mp hsv
    have hvz : v = zeroValue := by
      cases v with
      | mk s mag =>
        simp only at hsv hmag
        subst hsv
        subst hmag
        rfl
    have hps : parseSign ['0'] = (false, ['0']) :=
      parseSign_cons_of_ne (by decide) (by decide)
    have hpd : parseDigits radix 0 ['0'] = some 0 := by
      have h0 : digitVal '0' = some 0 := by decide
      simp only [parseDigits, h0, if_pos (by omega : (0 : Nat) < radix)]
      simp
    have hres := bignum_from_string_ok_of ['0'] radix 0 hradix
      (by rw [hps]; simp) (by rw [hps]; exact hpd)
    rw [hres, hps, hvz]
    simp only [Bool.false_eq_true, if_neg (by simp : ¬ False)]
    rfl

theorem bignum_to_s_ok_radix {v : Value} {radix : Nat} {s : List Char}
    (h : bignum_to_s v radix = Except.ok s) : ¬(radix < 2 ∨ 36 < radix) := by
  intro hr
  rw [bignum_to_s, if_pos hr] at h
  exact Except.noConfusion h

theorem intoStringBody_eq {v : Value} {radix : Nat} {s : List Char}
    (h : bignum_to_s v radix = Except.ok s) : intoStringBody v radix = s := by
  have hrad := bignum_to_s_ok_radix h
  rw [bignum_to_s, if_neg hrad] at h
  rcases hsv : v.sign with _ | _ | _ <;> rw [hsv] at h
  case Pos =>
    rw [if_neg (by decide), if_neg (by decide)] at h
    simp only [Except.ok.injEq] at h
    subst h
    rw [intoStringBody, hsv]
    rw [if_neg (by decide), if_neg (by decide), List.map_reverse]
    simp
  case Neg =>
    rw [if_neg (by decide), if_pos rfl] at h
    simp only [Except.ok.injEq] at h
    subst h
    rw [intoStringBody, hsv]
    rw [if_pos rfl, if_neg (by decide), List.map_reverse]
    simp
  case Zero =>
    rw [if_pos rfl] at h
    simp only [Except.ok.injEq] at h
    subst h
    rw [intoStringBody, hsv]
    rw [if_neg (by decide), if_pos rfl]
    simp

theorem bignum_from_string_canonical {s : List Char} {rad : Nat} {v : Value}
    (h : bignum_from_string s rad = Except.ok v) : Canonical v := by
  rw [bignum_from_string] at h
  split at h
  · exact Except.noConfusion h
  · split at h
    · exact Except.noConfusion h
    · split at h
      · exact Except.noConfusion h
      · simp only [Except.ok.injEq] at h
        subst h
        exact intToValue_canonical _

/-! ### Claim theorems -/

/-- C1: for every canonical value `a` and nonzero canonical value `b`,
division satisfies the floor identity `Divide(a,b)*b + Remainder(a,b) = a`
(stated with the program's own Multiply and Add), and the remainder's sign
is Zero or equals the divisor's sign. -/
theorem claim_C1 (a b q r : Value) (ha : Canonical a) (hb : Canonical b)
    (hbs : b.sign ≠ Sign.Zero) (h : bignum_div a b = Except.ok (q, r)) :
    bignum_add (bignum_mul q b) r = a ∧
      (r.sign = Sign.Zero ∨ r.sign = b.sign) := by
  obtain ⟨hid, hsign, hcq, hcr⟩ := bignum_div_spec ha hb hbs h
  refine ⟨?_, hsign⟩
  rw [bignum_mul_eq q b, bignum_add_eq (intToValue_canonical _) hcr,
    toInt_intToValue, hid, intToValue_toInt ha]

/-- C1 witness: `Divide(Parse("-7",10), Parse("2",10))` yields quotient `-4`
and remainder `1`, and the division identity holds there. -/
theorem claim_C1_witness :
    bignum_from_string ['-', '7'] 10 = Except.ok (Value.mk Sign.Neg [7]) ∧
    bignum_from_string ['2'] 10 = Except.ok (Value.mk Sign.Pos [2]) ∧
    bignum_div (Value.mk Sign.Neg [7]) (Value.mk Sign.Pos [2]) =
      Except.ok (Value.mk Sign.Neg [4], Value.mk Sign.Pos [1]) ∧
    toInt (Value.mk Sign.Neg [4]) = -4 ∧ toInt (Value.mk Sign.Pos [1]) = 1 ∧
    (bignum_add (bignum_mul (Value.mk Sign.Neg [4]) (Value.mk Sign.Pos [2]))
        (Value.mk Sign.Pos [1]) = Value.mk Sign.Neg [7] ∧
      ((Value.mk Sign.Pos [1]).sign = Sign.Zero ∨
        (Value.mk Sign.Pos [1]).sign = (Value.mk Sign.Pos [2]).sign)) :=
  ⟨by decide, by decide, by decide, by decide, by decide,
    claim_C1 (Value.mk Sign.Neg [7]) (Value.mk Sign.Pos [2])
      (Value.mk Sign.Neg [4]) (Value.mk Sign.Pos [1])
      (by decide) (by decide) (by decide) (by decide)⟩

theorem bignum_from_double_canonical {d : DoubleVal} {w : Value}
    (h : bignum_from_double d = Except.ok w) : Canonical w := by
  cases d with
  | NaN => exact Except.noConfusion h
  | PosInf => exact Except.noConfusion h
  | NegInf => exact Except.noConfusion h
  | Finite neg m e =>
    simp only [bignum_from_double, Except.ok.injEq] at h
    subst h
    cases neg
    · exact mkValue_canonical (by decide) _
    · exact mkValue_canonical (by decide) _

/-- C3: Normalize is idempotent on every value, and the values returned by
the public operations (on well-formed inputs) are canonical: no leading
zero limb, sign Zero exactly for the empty magnitude.  The value-returning
public operations of the header are all covered: the constructors, the
arithmetic set, negate/invert and the bitwise engine, division's quotient
and remainder, string parsing, and the double-to-Value bridge. -/
theorem claim_C3 (x a b q r v w : Value) (s : List Char) (rad : Nat)
    (nI : Int) (nN : Nat) (d : DoubleVal)
    (hx : RawWellFormed x) (ha : Canonical a) (hb : Canonical b)
    (hdiv : bignum_div a b = Except.ok (q, r))
    (hparse : bignum_from_string s rad = Except.ok v)
    (hdbl : bignum_from_double d = Except.ok w) :
    (∀ y : Value, bignum_normalize (bignum_normalize y) = bignum_normalize y) ∧
    Canonical (bignum_normalize x) ∧
    Canonical (bignum_new nI) ∧ Canonical (bignum_new_unsigned nN) ∧
    Canonical (bignum_add a b) ∧ Canonical (bignum_sub a b) ∧
    Canonical (bignum_mul a b) ∧ Canonical (bignum_neg a) ∧
    Canonical (bignum_invert a) ∧
    Canonical (bignum_and a b) ∧ Canonical (bignum_or a b) ∧
    Canonical (bignum_xor a b) ∧
    Canonical q ∧ Canonical r ∧ Canonical v ∧ Canonical w := by
  have hbs : b.sign ≠ Sign.Zero := by
    intro hz
    rw [bignum_div, if_pos hz] at hdiv
    exact Except.noConfusion hdiv
  obtain ⟨_, _, hcq, hcr⟩ := bignum_div_spec ha hb hbs hdiv
  exact ⟨bignum_normalize_idem, bignum_normalize_canonical hx,
    intToValue_canonical nI, mkValue_canonical (by decide) nN,
    bignum_add_canonical ha hb, bignum_sub_canonical ha hb,
    bignum_mul_canonical a b, bignum_neg_canonical ha,
    bignum_invert_canonical a,
    intToValue_canonical _, intToValue_canonical _, intToValue_canonical _,
    hcq, hcr, bignum_from_string_canonical hparse,
    bignum_from_double_canonical hdbl⟩

/-- C3 witness: the canonicity and idempotence facts at concrete inputs,
including a raw value with a leading zero limb, constructor inputs, and a
finite double `3 * 2^-1` whose truncation is `1`. -/
theorem claim_C3_witness :
    RawWellFormed (Value.mk Sign.Pos [3, 0]) ∧
    Canonical (Value.mk Sign.Pos [7]) ∧ Canonical (Value.mk Sign.Neg [2]) ∧
    bignum_div (Value.mk Sign.Pos [7]) (Value.mk Sign.Neg [2]) =
      Except.ok (Value.mk Sign.Neg [4], Value.mk Sign.Neg [1]) ∧
    bignum_from_string ['5'] 10 = Except.ok (Value.mk Sign.Pos [5]) ∧
    bignum_from_double (DoubleVal.Finite false 3 (-1)) =
      Except.ok (Value.mk Sign.Pos [1]) ∧
    ((∀ y : Value, bignum_normalize (bignum_normalize y) = bignum_normalize y) ∧
      Canonical (bignum_normalize (Value.mk Sign.Pos [3, 0])) ∧
      Canonical (bignum_new (-9)) ∧ Canonical (bignum_new_unsigned 4) ∧
      Canonical (bignum_add (Value.mk Sign.Pos [7]) (Value.mk Sign.Neg [2])) ∧
      Canonical (bignum_sub (Value.mk Sign.Pos [7]) (Value.mk Sign.Neg [2])) ∧
      Canonical (bignum_mul (Value.mk Sign.Pos [7]) (Value.mk Sign.Neg [2])) ∧
      Canonical (bignum_neg (Value.mk Sign.Pos [7])) ∧
      Canonical (bignum_invert (Value.mk Sign.Pos [7])) ∧
      Canonical (bignum_and (Value.mk Sign.Pos [7]) (Value.mk Sign.Neg [2])) ∧
      Canonical (bignum_or (Value.mk Sign.Pos [7]) (Value.mk Sign.Neg [2])) ∧
      Canonical (bignum_xor (Value.mk Sign.Pos [7]) (Value.mk Sign.Neg [2])) ∧
      Canonical (Value.mk Sign.Neg [4]) ∧ Canonical (Value.mk Sign.Neg [1]) ∧
      Canonical (Value.mk Sign.Pos [5]) ∧ Canonical (Value.mk Sign.Pos [1])) :=
  ⟨by decide, by decide, by decide, by decide, by decide, by decide,
    claim_C3 (Value.mk Sign.Pos [3, 0]) (Value.mk Sign.Pos [7])
      (Value.mk Sign.Neg [2]) (Value.mk Sign.Neg [4]) (Value.mk Sign.Neg [1])
      (Value.mk Sign.Pos [5]) (Value.mk Sign.Pos [1]) ['5'] 10
      (-9) 4 (DoubleVal.Finite false 3 (-1))
      (by decide) (by decide) (by decide) (by decide) (by decide) (by decide)⟩

/-- C4: division fails with the DivisionByZero condition exactly when the
divisor's sign is Zero, and succeeds (returning an explicit quotient and
remainder pair) exactly otherwise — the failure is an explicit signal,
never a coerced result. -/
theorem claim_C4 (a b : Value) :
    (bignum_div a b = Except.error BignumError.DivisionByZero ↔
      b.sign = Sign.Zero) ∧
    ((∃ p, bignum_div a b = Except.ok p) ↔ b.sign ≠ Sign.Zero) :=
  ⟨bignum_div_error_iff a b, bignum_div_ok_iff a b⟩

/-- C6: bitwise complement computes `-(x) - 1`, and complement and
arithmetic negation are involutions on canonical values. -/
theorem claim_C6 (x : Value) (hx : Canonical x) :
    toInt (bignum_invert x) = -(toInt x) - 1 ∧
    bignum_invert (bignum_invert x) = x ∧
    bignum_neg (bignum_neg x) = x := by
  refine ⟨toInt_bignum_invert x, ?_, ?_⟩
  · rw [bignum_invert, bignum_invert, toInt_intToValue]
    rw [show -(-(toInt x) - 1) - 1 = toInt x by ring]
    exact intToValue_toInt hx
  · rw [bignum_neg_eq hx, bignum_neg_eq (intToValue_canonical _), toInt_intToValue,
      neg_neg]
    exact intToValue_toInt hx

/-- C6 witness: the complement and negation involutions at `x = 5`. -/
theorem claim_C6_witness :
    Canonical (Value.mk Sign.Pos [5]) ∧
    (toInt (bignum_invert (Value.mk Sign.Pos [5])) =
        -(toInt (Value.mk Sign.Pos [5])) - 1 ∧
      bignum_invert (bignum_invert (Value.mk Sign.Pos [5])) =
        Value.mk Sign.Pos [5] ∧
      bignum_neg (bignum_neg (Value.mk Sign.Pos [5])) = Value.mk Sign.Pos [5]) :=
  ⟨by decide, claim_C6 (Value.mk Sign.Pos [5]) (by decide)⟩

/-- C9: addition and multiplication are commutative on canonical values. -/
theorem claim_C9 (a b : Value) (ha : Canonical a) (hb : Canonical b) :
    bignum_add a b = bignum_add b a ∧ bignum_mul a b = bignum_mul b a := by
  constructor
  · rw [bignum_add_eq ha hb, bignum_add_eq hb ha, Int.add_comm]
  · rw [bignum_mul_eq a b, bignum_mul_eq b a, Int.mul_comm]

/-- C9 witness: commutativity at `3` and `-65537` (a two-limb value). -/
theorem claim_C9_witness :
    Canonical (Value.mk Sign.Pos [3]) ∧ Canonical (Value.mk Sign.Neg [1, 1]) ∧
    (bignum_add (Value.mk Sign.Pos [3]) (Value.mk Sign.Neg [1, 1]) =
        bignum_add (Value.mk Sign.Neg [1, 1]) (Value.mk Sign.Pos [3]) ∧
      bignum_mul (Value.mk Sign.Pos [3]) (Value.mk Sign.Neg [1, 1]) =
        bignum_mul (Value.mk Sign.Neg [1, 1]) (Value.mk Sign.Pos [3])) :=
  ⟨by decide, by decide,
    claim_C9 (Value.mk Sign.Pos [3]) (Value.mk Sign.Neg [1, 1])
      (by decide) (by decide)⟩

/-- C2 witness: `Render(255, 16) = "ff"` parses back to `255`. -/
theorem parse_render_roundtrip_witness :
    Canonical (Value.mk Sign.Pos [255]) ∧ (2 : Nat) ≤ 16 ∧ (16 : Nat) ≤ 36 ∧
    bignum_to_s (Value.mk Sign.Pos [255]) 16 = Except.ok ['f', 'f'] ∧
    bignum_from_string ['f', 'f'] 16 = Except.ok (Value.mk Sign.Pos [255]) :=
  ⟨by decide, by decide, by decide, by decide,
    parse_render_roundtrip (by decide) (by decide) (by decide) (by decide)⟩

/-- C5: whenever the allocating render succeeds, render-into-buffer fails
with BufferTooSmall exactly when the capacity cannot hold the rendered
characters plus the terminator, and on that failure the buffer contents
are returned entirely unmodified. -/
theorem claim_C5 (v : Value) (radix : Nat) (buf : List Char) (sz : Nat)
    (s : List Char) (h : bignum_to_s v radix = Except.ok s) :
    (bignum_into_string v radix buf sz =
        (some BignumError.BufferTooSmall, buf) ↔ sz < s.length + 1) := by
  have hrad := bignum_to_s_ok_radix h
  have hbody := intoStringBody_eq h
  rw [bignum_into_string, if_neg hrad, hbody]
  by_cases hsz : sz < s.length + 1
  · rw [if_pos hsz]
    simp [hsz]
  · rw [if_neg hsz]
    constructor
    · intro hcontra
      exact absurd (congrArg Prod.fst hcontra) (by simp)
    · intro h'
      exact absurd h' hsz

/-- C5 witness: rendering `-255` in radix 16 needs four bytes; a capacity
of 3 fails with BufferTooSmall and leaves the buffer unchanged. -/
theorem claim_C5_witness :
    bignum_to_s (Value.mk Sign.Neg [255]) 16 = Except.ok ['-', 'f', 'f'] ∧
    (bignum_into_string (Value.mk Sign.Neg [255]) 16 ['q', 'q', 'q'] 3 =
        (some BignumError.BufferTooSmall, ['q', 'q', 'q']) ↔ 3 < 3 + 1) :=
  ⟨by decide,
    claim_C5 (Value.mk Sign.Neg [255]) 16 ['q', 'q', 'q'] 3 ['-', 'f', 'f']
      (by decide)⟩

/-- C10: whenever the buffer capacity suffices, render-into-buffer succeeds
and writes exactly the character sequence the allocating render returns,
followed by the NUL terminator, leaving the rest of the buffer in place. -/
theorem claim_C10 (v : Value) (radix : Nat) (buf : List Char) (sz : Nat)
    (s : List Char) (h : bignum_to_s v radix = Except.ok s)
    (hsz : s.length + 1 ≤ sz) :
    bignum_into_string v radix buf sz =
      (none, s ++ nulChar :: buf.drop (s.length + 1)) := by
  have hrad := bignum_to_s_ok_radix h
  have hbody := intoStringBody_eq h
  rw [bignum_into_string, if_neg hrad, hbody, if_neg (by omega)]

/-- C10 witness: with capacity 6, rendering `-255` in radix 16 writes
`-ff` plus the terminator over the buffer's first four cells. -/
theorem claim_C10_witness :
    bignum_to_s (Value.mk Sign.Neg [255]) 16 = Except.ok ['-', 'f', 'f'] ∧
    (3 : Nat) + 1 ≤ 6 ∧
    bignum_into_string (Value.mk Sign.Neg [255]) 16
        ['q', 'q', 'q', 'q', 'q', 'q'] 6 =
      (none, ['-', 'f', 'f'] ++ nulChar ::
        List.drop (List.length ['-', 'f', 'f'] + 1) ['q', 'q', 'q', 'q', 'q', 'q']) :=
  ⟨by decide, by decide,
    claim_C10 (Value.mk Sign.Neg [255]) 16 ['q', 'q', 'q', 'q', 'q', 'q'] 6
      ['-', 'f', 'f'] (by decide) (by decide)⟩

/-- C7: Parse fails with MalformedNumeral exactly when the radix is outside
[2,36], the digit run after the optional sign is empty, or some character
of that run is invalid for the radix; an accepted string yields the value
accumulated left-to-right as `magnitude = magnitude * radix + digit_value`,
negated when a `-` sign was consumed. -/
theorem claim_C7 (str : List Char) (radix : Nat) (v : Value) :
    (bignum_from_string str radix = Except.error BignumError.MalformedNumeral ↔
      radix < 2 ∨ 36 < radix ∨ (parseSign str).2 = [] ∨
        ∃ c ∈ (parseSign str).2, validDigitFor radix c = false) ∧
    (bignum_from_string str radix = Except.ok v ↔
      ¬(radix < 2 ∨ 36 < radix) ∧ (parseSign str).2 ≠ [] ∧
        (∀ c ∈ (parseSign str).2, validDigitFor radix c = true) ∧
        v = intToValue
          (if (parseSign str).1 then
            -((((parseSign str).2.foldl
                (fun a c => a * radix + (digitVal c).getD 0) 0 : Nat)) : Int)
          else
            ((((parseSign str).2.foldl
                (fun a c => a * radix + (digitVal c).getD 0) 0 : Nat)) : Int))) := by
  by_cases hrad : radix < 2 ∨ 36 < radix
  · rw [bignum_from_string, if_pos hrad]
    constructor
    · constructor
      · intro _
        rcases hrad with h | h
        · exact Or.inl h
        · exact Or.inr (Or.inl h)
      · intro _
        rfl
    · constructor
      · intro h
        exact Except.noConfusion h
      · rintro ⟨h, _⟩
        exact absurd hrad h
  · by_cases hne : (parseSign str).2 = []
    · rw [bignum_from_string, if_neg hrad, if_pos hne]
      constructor
      · constructor
        · intro _
          exact Or.inr (Or.inr (Or.inl hne))
        · intro _
          rfl
      · constructor
        · intro h
          exact Except.noConfusion h
        · rintro ⟨_, h, _⟩
          exact absurd hne h
    · by_cases hval : ∀ c ∈ (parseSign str).2, validDigitFor radix c = true
      · have hpd := parseDigits_some radix (parseSign str).2 0 hval
        rw [bignum_from_string, if_neg hrad, if_neg hne, hpd]
        constructor
        · constructor
          · intro h
            exact Except.noConfusion h
          · rintro (h | h | h | ⟨c, hc, hcv⟩)
            · exact absurd (Or.inl h) hrad
            · exact absurd (Or.inr h) hrad
            · exact absurd h hne
            · rw [hval c hc] at hcv
              exact Bool.noConfusion hcv
        · constructor
          · intro h
            simp only [Except.ok.injEq] at h
            exact ⟨hrad, hne, hval, h.symm⟩
          · rintro ⟨_, _, _, hv⟩
            rw [hv]
      · have hex : ∃ c ∈ (parseSign str).2, validDigitFor radix c = false := by
          push_neg at hval
          obtain ⟨c, hc, hcv⟩ := hval
          exact ⟨c, hc, by simpa using hcv⟩
        have hpd := (parseDigits_none_iff radix (parseSign str).2 0).mpr hex
        rw [bignum_from_string, if_neg hrad, if_neg hne, hpd]
        constructor
        · constructor
          · intro _
            exact Or.inr (Or.inr (Or.inr hex))
          · intro _
            rfl
        · constructor
          · intro h
            exact Except.noConfusion h
          · rintro ⟨_, _, hval', _⟩
            obtain ⟨c, hc, hcv⟩ := hex
            rw [hval' c hc] at hcv
            exact Bool.noConfusion hcv

/-- C8: radix-detecting parse maps `0x`/`0X` to radix 16, `0b`/`0B` to 2,
`0o`/`0O` to 8, a bare leading `0` followed by a digit to 8 (stripping the
`0`), and anything else to radix 10, then behaves exactly as Parse with
that radix; in particular the detected parse of `0x1A` equals
`Parse("1A", 16)`. -/
theorem claim_C8 (t str : List Char) (c e : Char) (hc : c.isDigit = true)
    (hed : e.isDigit = false) (hex : e ≠ 'x') (heX : e ≠ 'X')
    (heb : e ≠ 'b') (heB : e ≠ 'B') (heo : e ≠ 'o') (heO : e ≠ 'O')
    (hstr : str.head? ≠ some '0') :
    bignum_from_string_detect ('0' :: 'x' :: t) = bignum_from_string t 16 ∧
    bignum_from_string_detect ('0' :: 'X' :: t) = bignum_from_string t 16 ∧
    bignum_from_string_detect ('0' :: 'b' :: t) = bignum_from_string t 2 ∧
    bignum_from_string_detect ('0' :: 'B' :: t) = bignum_from_string t 2 ∧
    bignum_from_string_detect ('0' :: 'o' :: t) = bignum_from_string t 8 ∧
    bignum_from_string_detect ('0' :: 'O' :: t) = bignum_from_string t 8 ∧
    bignum_from_string_detect ('0' :: c :: t) = bignum_from_string (c :: t) 8 ∧
    bignum_from_string_detect ('0' :: e :: t) =
      bignum_from_string ('0' :: e :: t) 10 ∧
    bignum_from_string_detect str = bignum_from_string str 10 ∧
    bignum_from_string_detect ['0'] = bignum_from_string ['0'] 10 ∧
    bignum_from_string_detect ['0', 'x', '1', 'A'] =
      bignum_from_string ['1', 'A'] 16 := by
  have hcx : c ≠ 'x' := fun h => by subst h; exact absurd hc (by decide)
  have hcX : c ≠ 'X' := fun h => by subst h; exact absurd hc (by decide)
  have hcb : c ≠ 'b' := fun h => by subst h; exact absurd hc (by decide)
  have hcB : c ≠ 'B' := fun h => by subst h; exact absurd hc (by decide)
  have hco : c ≠ 'o' := fun h => by subst h; exact absurd hc (by decide)
  have hcO : c ≠ 'O' := fun h => by subst h; exact absurd hc (by decide)
  refine ⟨rfl, rfl, rfl, rfl, rfl, rfl, ?_, ?_, ?_, rfl, rfl⟩
  · rw [bignum_from_string_detect, detectRadix]
    rw [if_pos rfl, if_neg (by tauto), if_neg (by tauto), if_neg (by tauto),
      if_pos hc]
  · rw [bignum_from_string_detect, detectRadix]
    rw [if_pos rfl, if_neg (by tauto), if_neg (by tauto), if_neg (by tauto),
      if_neg (by simp [hed])]
  · cases hs : str with
    | nil => rfl
    | cons c0 rest =>
      have hc0 : c0 ≠ '0' := by
        intro h
        rw [hs, h] at hstr
        exact hstr rfl
      cases rest with
      | nil => rfl
      | cons c1 rest2 =>
        rw [bignum_from_string_detect, detectRadix]
        rw [if_neg hc0]

/-- C8 witness: the prefix mapping at concrete inputs, in particular
detected `0x1A` equals `Parse("1A",16)`. -/
theorem claim_C8_witness :
    bignum_from_string_detect ['0', 'x', '7'] = bignum_from_string ['7'] 16 ∧
    bignum_from_string_detect ['0', 'X', '7'] = bignum_from_string ['7'] 16 ∧
    bignum_from_string_detect ['0', 'b', '7'] = bignum_from_string ['7'] 2 ∧
    bignum_from_string_detect ['0', 'B', '7'] = bignum_from_string ['7'] 2 ∧
    bignum_from_string_detect ['0', 'o', '7'] = bignum_from_string ['7'] 8 ∧
    bignum_from_string_detect ['0', 'O', '7'] = bignum_from_string ['7'] 8 ∧
    bignum_from_string_detect ['0', '7', '7'] = bignum_from_string ['7', '7'] 8 ∧
    bignum_from_string_detect ['0', 'z', '7'] =
      bignum_from_string ['0', 'z', '7'] 10 ∧
    bignum_from_string_detect ['9'] = bignum_from_string ['9'] 10 ∧
    bignum_from_string_detect ['0'] = bignum_from_string ['0'] 10 ∧
    bignum_from_string_detect ['0', 'x', '1', 'A'] =
      bignum_from_string ['1', 'A'] 16 :=
  claim_C8 ['7'] ['9'] '7' 'z' (by decide) (by decide) (by decide) (by decide)
    (by decide) (by decide) (by decide) (by decide) (by decide)
